import Mathlib

/-
  Verification development for the cowboys-ipsum generator (`src/main.ts`).

  The TypeScript source is shallowly embedded: `Math.random()` becomes an
  explicit stream of rationals in a threaded state, the mutable trackers
  (`usedWords`, `usedDictionary`) become fields of that state, and every
  fallible JS operation (out-of-bounds indexing, property access on
  `undefined`) is made explicit with `Option` — `none` models a thrown
  `TypeError` or, for the fuelled recursive draw, a computation that has not
  terminated within the supplied number of random draws.
-/

namespace Leepsum

/-! ## Template store (the shape of `data.json` as the code accesses it) -/

/-- One sub-component of a gendered/numbered word category:
`{ required, values, default }` in `data.json`. -/
structure SubComp where
  required : ℚ
  values : List String
  default : Option String
deriving Repr

/-- `typeObj[gender]` : an ordered map from number-label to an ordered map
from sub-component name to `SubComp` (ordered as `Object.keys` returns). -/
abbrev NumberMap := List (String × List (String × SubComp))

/-- A gendered section type object: fields `options`, `sep`, `structure`
(here `struct`), and the two gender maps `m` / `f`. -/
structure TypeObj where
  options : Option (List (Sum String (List String)))
  sep : List String
  struct : List String
  m : NumberMap
  f : NumberMap
deriving Repr

/-- A named entry of `data.json`: either a flat array of strings (a plain
word pool) or a gendered section type object. -/
inductive Entry
  | arr (values : List String)
  | obj (t : TypeObj)
deriving Repr

/-- The template store: `data.structures` plus the named entries looked up
by `(data as any)[token]`. -/
structure Data where
  structures : List (List String)
  entries : List (String × Entry)
deriving Repr

/-- Dynamic property lookup `(data as any)[name]`. -/
def Data.find (d : Data) (name : String) : Option Entry :=
  (d.entries.find? (fun e => e.1 == name)).map Prod.snd

/-- `typeObj[gender]` : only the keys `"m"` and `"f"` hold gender maps;
any other key is `undefined`. -/
def TypeObj.byGender (t : TypeObj) (g : String) : Option NumberMap :=
  if g == "m" then some t.m else if g == "f" then some t.f else none

/-! ## Runtime state and randomness -/

/-- The per-run mutable state: the `Math.random()` stream with the current
read position, plus the two repeat-avoidance trackers. -/
structure St where
  stream : ℕ → ℚ
  pos : ℕ
  usedWords : List (String × List ℤ)
  usedDictionary : List String

/-- One call of `Math.random()`. -/
def rand (st : St) : ℚ × St :=
  (st.stream st.pos, { st with pos := st.pos + 1 })

/-- JS `arr[Math.floor(q * arr.length)]`: a negative or too-large index
yields `undefined` (`none`). -/
def jsGet {α : Type} (arr : List α) (q : ℚ) : Option α :=
  let i : ℤ := ⌊q * (arr.length : ℚ)⌋
  if 0 ≤ i then arr.get? i.toNat else none

/-- `randomFromArray(arr)`: one random draw from an array. -/
def randomFromArray {α : Type} (arr : List α) (st : St) : Option α × St :=
  let (r, st₁) := rand st
  (jsGet arr r, st₁)

/-- JS string coercion used when `undefined` flows into string
concatenation or `Array.prototype.join`. -/
def jsStr : Option String → String
  | none => "undefined"
  | some s => s

/-- `random(min, max)` from the source: `floor(random * (max - min + 1)) + min`. -/
def randomRange (lo hi : ℤ) (st : St) : ℤ × St :=
  let (r, st₁) := rand st
  (⌊r * ((hi : ℚ) - (lo : ℚ) + 1)⌋ + lo, st₁)

/-! ## Repeat-avoidance tracker -/

/-- `this.usedWords.get(type) ?? []`. -/
def memOf (uw : List (String × List ℤ)) (t : String) : List ℤ :=
  ((uw.find? (fun e => e.1 == t)).map Prod.snd).getD []

/-- `used.push(index); if (used.length > 4) used.shift();` — the FIFO
update of one category's recent-index memory. -/
def fifoPush (used : List ℤ) (i : ℤ) : List ℤ :=
  let u := used ++ [i]
  if u.length > 4 then u.tail else u

/-- `this.usedWords.set(type, used)`. -/
def setUsed (uw : List (String × List ℤ)) (t : String) (v : List ℤ) :
    List (String × List ℤ) :=
  if uw.any (fun e => e.1 == t) then
    uw.map (fun e => if e.1 == t then (e.1, v) else e)
  else uw ++ [(t, v)]

/-- `getRandomNoRepeat(arr)`: the value-dictionary draw. The inner
`Option String` is the returned JS value (`none` = `undefined`); the outer
`none` models the `TypeError` thrown by `word.length` when the first pick
is `undefined`. -/
def getRandomNoRepeat (arr : List String) (st : St) :
    Option (Option String × St) :=
  let (w, st₁) := randomFromArray arr st
  match w with
  | none => none
  | some word =>
    if word ∉ st₁.usedDictionary ∧ word.length > 3 then
      some (some word,
        { st₁ with usedDictionary := st₁.usedDictionary ++ [word] })
    else
      let (w2, st₂) := randomFromArray arr st₁
      some (w2, st₂)

/-- `getRandomWord(type)`: draw a random index into the named flat pool,
redrawing (recursively) while the index sits in the category's recent-index
memory. The fuel counts how many random draws the recursion may consume:
outer `none` means the recursion did not finish within `fuel` draws (or the
named entry is not a flat array, which the source only reaches on
ill-formed data). The inner `Option String` is `list[index]`, which is
`undefined` when the index is out of bounds (empty pool). -/
def getRandomWord (d : Data) (t : String) : ℕ → St → Option (Option String × St)
  | 0, _ => none
  | fuel + 1, st =>
    match d.find t with
    | some (Entry.arr list) =>
      let (r, st₁) := rand st
      let index : ℤ := ⌊r * (list.length : ℚ)⌋
      let used := memOf st₁.usedWords t
      if index ∉ used then
        some ((if 0 ≤ index then list.get? index.toNat else none),
          { st₁ with usedWords := setUsed st₁.usedWords t (fifoPush used index) })
      else
        getRandomWord d t fuel st₁
    | _ => none

/-! ## Section resolution -/

/-- The resolved `{type, text, gender, number}` record of one partial. -/
structure PartialResult where
  type : String
  text : String
  gender : String
  number : String
deriving Repr, DecidableEq

/-- An agreement preset `{gender?, number?}`; `none` is an absent
(`undefined`) field, `some ""` is the *present* empty-string field the
sentence loop initialises its protagonist context with. -/
structure Preset where
  gender : Option String
  number : Option String
deriving Repr, DecidableEq

/-- The token-by-token text assembly of `getPartial`: for each category in
the sub-type's `structure` order, with probability `required` draw a
no-repeat value, else use `default ?? ""`. An entry `none` in the result is
an `undefined` pushed by the fallback redraw of `getRandomNoRepeat`. -/
def buildParts (obj : List (String × SubComp)) :
    List String → St → Option (List (Option String) × St)
  | [], st => some ([], st)
  | category :: rest, st =>
    match (obj.find? (fun e => e.1 == category)).map Prod.snd with
    | none => none
    | some sc =>
      let (r, st₁) := rand st
      if sc.required ≥ r then
        match getRandomNoRepeat sc.values st₁ with
        | none => none
        | some (w, st₂) =>
          match buildParts obj rest st₂ with
          | none => none
          | some (ps, st₃) => some (w :: ps, st₃)
      else
        match buildParts obj rest st₁ with
        | none => none
        | some (ps, st₂) => some (some (sc.default.getD "") :: ps, st₂)

/-- `getPartial(type, preset)`. The random coin for the gender and the
random pick among `Object.keys(typeObj[gender])` are consumed only when the
corresponding preset field is nullish, exactly as `??` short-circuits.
A gender that is not `"m"`/`"f"` (e.g. the empty string) makes
`typeObj[gender]` `undefined` and `Object.keys` throw (`none`).  A missing
number-label key is likewise modelled as a failure (the store always
defines at least one label for each gender). -/
def getPartial (d : Data) (type : String) (preset : Preset) (st : St) :
    Option (PartialResult × St) :=
  let (gender, st₁) :=
    match preset.gender with
    | some g => (g, st)
    | none =>
      let (r, st') := rand st
      ((if r > 1/2 then "m" else "f"), st')
  match d.find type with
  | some (Entry.obj typeObj) =>
    match typeObj.byGender gender with
    | none => none
    | some byNum =>
      let numbers := byNum.map Prod.fst
      let (numberQ, st₂) :=
        match preset.number with
        | some n => (some n, st₁)
        | none =>
          let (r, st') := rand st₁
          (jsGet numbers r, st')
      match numberQ with
      | none => none
      | some number =>
        match (byNum.find? (fun e => e.1 == number)).map Prod.snd with
        | none => none
        | some obj =>
          match buildParts obj typeObj.struct st₂ with
          | none => none
          | some (parts, st₃) =>
            let text :=
              String.intercalate " "
                (((parts.filterMap id).filter (fun s => s != "")))
            some ({ type := type, text := text, gender := gender,
                    number := number }, st₃)
  | _ => none

/-- One merge step of `mergePartials`: adjust the running gender, then
append a random separator and the next partial's text. -/
def mergeStep (typeObj : TypeObj) (base : PartialResult) (p : PartialResult)
    (st : St) : PartialResult × St :=
  let gender := if p.gender != base.gender then "m" else base.gender
  let (sep, st₁) := randomFromArray typeObj.sep st
  ({ base with gender := gender, text := base.text ++ jsStr sep ++ p.text }, st₁)

/-- `mergePartials(arr, type, typeObj)`: fold the tail partials into the
first, then force `type` and `number := "plural"`. An empty compound
selection is not modelled (`none`). -/
def mergePartials (arr : List PartialResult) (type : String)
    (typeObj : TypeObj) (st : St) : Option (PartialResult × St) :=
  match arr with
  | [] => none
  | first :: rest =>
    let (base, st₁) :=
      rest.foldl (fun acc p => mergeStep typeObj acc.1 p acc.2) (first, st)
    some ({ base with type := type, number := "plural" }, st₁)

/-- `selected.map((t) => this.getPartial(t, preset))`. -/
def mapGetPartial (d : Data) :
    List String → Preset → St → Option (List PartialResult × St)
  | [], _, st => some ([], st)
  | t :: ts, preset, st =>
    match getPartial d t preset st with
    | none => none
    | some (p, st₁) =>
      match mapGetPartial d ts preset st₁ with
      | none => none
      | some (ps, st₂) => some (p :: ps, st₂)

/-- `getSection(originalType, preset)`. A name with no entry in the store
makes `typeObj.options` throw immediately (`none`). -/
def getSection (d : Data) (originalType : String) (preset : Preset)
    (st : St) : Option (PartialResult × St) :=
  match d.find originalType with
  | none => none
  | some (Entry.arr _) => getPartial d originalType preset st
  | some (Entry.obj typeObj) =>
    match typeObj.options with
    | none => getPartial d originalType preset st
    | some opts =>
      let (sel, st₁) := randomFromArray opts st
      match sel with
      | none => none
      | some (Sum.inl name) => getPartial d name preset st₁
      | some (Sum.inr names) =>
        match mapGetPartial d names preset st₁ with
        | none => none
        | some (ps, st₂) => mergePartials ps originalType typeObj st₂

/-! ## Sentence and paragraph generation -/

/-- `capitalize(str)`: uppercase the first character. JS `toUpperCase()`
performs full Unicode uppercasing; `Char.toUpper` models its ASCII range,
which is all the stated properties depend on (none inspects the case
mapping of a non-ASCII initial). -/
def capitalize (s : String) : String :=
  match s.data with
  | [] => s
  | c :: cs => String.mk (c.toUpper :: cs)

/-- The category fall-through at the end of the token loop:
`parts.push(category ? this.getRandomWord(token) : token)`. An `undefined`
returned by an out-of-bounds pool access is rendered by the later
`parts.join(" ")` as the empty string (the slot still takes part in the
join), hence `w.getD ""`. -/
def categoryStep (d : Data) (fuel : ℕ) (token : String) (parts : List String)
    (st : St) : Option (List String × St) :=
  match d.find token with
  | some _ =>
    match getRandomWord d token fuel st with
    | none => none
    | some (w, st₁) => some (parts ++ [w.getD ""], st₁)
  | none => some (parts ++ [token], st)

/-- One iteration of the token loop of `generateSentence`: `*`-tokens are
kept with probability 1/6 (marker stripped, then the category fall-through
runs), `?`-tokens resolve a section (updating the protagonist context when
the section is named `"protagonists"`), all else falls to the category
lookup. -/
def sentenceStep (d : Data) (fuel : ℕ) (token : String) (parts : List String)
    (protagonist : Preset) (st : St) : Option (List String × Preset × St) :=
  if token.data.head? == some '*' then
    let (r, st₁) := rand st
    if r ≥ 1/6 then some (parts, protagonist, st₁)
    else
      match categoryStep d fuel (String.mk token.data.tail) parts st₁ with
      | none => none
      | some (parts₁, st₂) => some (parts₁, protagonist, st₂)
  else if token.data.head? == some '?' then
    match getSection d (String.mk token.data.tail) protagonist st with
    | none => none
    | some (sec, st₁) =>
      let protagonist₁ :=
        if String.mk token.data.tail == "protagonists" then
          { gender := some sec.gender, number := some sec.number }
        else protagonist
      some (parts ++ [sec.text], protagonist₁, st₁)
  else
    match categoryStep d fuel token parts st with
    | none => none
    | some (parts₁, st₁) => some (parts₁, protagonist, st₁)

/-- The whole `for (let token of structure)` loop. -/
def sentenceTokens (d : Data) (fuel : ℕ) :
    List String → List String → Preset → St → Option (List String × St)
  | [], parts, _, st => some (parts, st)
  | token :: rest, parts, protagonist, st =>
    match sentenceStep d fuel token parts protagonist st with
    | none => none
    | some (parts₁, protagonist₁, st₁) =>
      sentenceTokens d fuel rest parts₁ protagonist₁ st₁

/-- `generateSentence()`: pick a structure uniformly at random, run the
token loop with the protagonist context initialised to
`{ gender: "", number: "" }`, join the parts with single spaces and
capitalize. -/
def generateSentence (d : Data) (fuel : ℕ) (st : St) : Option (String × St) :=
  let (s, st₁) := randomFromArray d.structures st
  match s with
  | none => none
  | some struct =>
    match sentenceTokens d fuel struct [] ⟨some "", some ""⟩ st₁ with
    | none => none
    | some (parts, st₂) =>
      some (capitalize (String.intercalate " " parts), st₂)

/-- `Array.from({length: n}, () => this.generateSentence())`. -/
def genSentences (d : Data) (fuel : ℕ) :
    ℕ → St → Option (List String × St)
  | 0, st => some ([], st)
  | n + 1, st =>
    match generateSentence d fuel st with
    | none => none
    | some (s, st₁) =>
      match genSentences d fuel n st₁ with
      | none => none
      | some (ss, st₂) => some (s :: ss, st₂)

/-- `generateParagraph()`: a random number of sentences in `[2, 8]`, joined
with single spaces, wrapped in `<p>…</p>`. -/
def generateParagraph (d : Data) (fuel : ℕ) (st : St) : Option (String × St) :=
  let (n, st₁) := randomRange 2 8 st
  match genSentences d fuel n.toNat st₁ with
  | none => none
  | some (ss, st₂) =>
    some ("<p>" ++ String.intercalate " " ss ++ "</p>", st₂)

/-! ## Word mode -/

/-- One `values` pool reached by a fixed path such as
`data.times.m.single.item.values` in the constructor. -/
def subValues (d : Data) (name g n comp : String) : List String :=
  match d.find name with
  | some (Entry.obj t) =>
    match t.byGender g with
    | some byNum =>
      match (byNum.find? (fun e => e.1 == n)).map Prod.snd with
      | some comps =>
        match (comps.find? (fun e => e.1 == comp)).map Prod.snd with
        | some sc => sc.values
        | none => []
      | none => []
    | none => []
  | _ => []

/-- `this.wordsArr`, flattened in the constructor. -/
def wordsArr (d : Data) : List String :=
  subValues d "times" "m" "single" "item" ++
  subValues d "places" "m" "single" "item" ++
  subValues d "places" "f" "single" "item" ++
  subValues d "persons" "m" "single" "item" ++
  subValues d "persons" "f" "single" "item" ++
  subValues d "roles" "m" "single" "item" ++
  subValues d "roles" "f" "single" "item" ++
  subValues d "roles" "m" "single" "specialisation" ++
  subValues d "roles" "f" "single" "specialisation"

/-- `randomWordFromPool()`: draw one pool item, then one of its
space-separated pieces. `none` models `undefined.split` throwing when the
flattened pool is empty; an out-of-range piece index flows back as the
string `"undefined"`. -/
def randomWordFromPool (d : Data) (st : St) : Option (String × St) :=
  let (item, st₁) := randomFromArray (wordsArr d) st
  match item with
  | none => none
  | some it =>
    let (w, st₂) := randomFromArray (it.splitOn " ") st₁
    some (jsStr w, st₂)

/-! ## Top-level generation -/

inductive IpsumType
  | Paragraphs
  | Sentences
  | Words
  | Lists
deriving Repr, DecidableEq

structure Settings where
  url : String
  nbr : ℚ
  type : IpsumType
deriving Repr

/-- `getLoremIpsum(type)`: one top-level unit. -/
def getLoremIpsum (d : Data) (fuel : ℕ) (type : IpsumType) (st : St) :
    Option (String × St) :=
  match type with
  | IpsumType.Sentences =>
    match generateSentence d fuel st with
    | none => none
    | some (s, st₁) => some (s ++ " ", st₁)
  | IpsumType.Words =>
    match randomWordFromPool d st with
    | none => none
    | some (w, st₁) => some (w ++ " ", st₁)
  | IpsumType.Lists =>
    match generateSentence d fuel st with
    | none => none
    | some (s, st₁) => some ("<li>" ++ s ++ "</li>", st₁)
  | IpsumType.Paragraphs => generateParagraph d fuel st

/-- `Array.from({length: n}, () => this.getLoremIpsum(type))`. -/
def setupUnits (d : Data) (fuel : ℕ) (type : IpsumType) :
    ℕ → St → Option (List String × St)
  | 0, st => some ([], st)
  | n + 1, st =>
    match getLoremIpsum d fuel type st with
    | none => none
    | some (u, st₁) =>
      match setupUnits d fuel type n st₁ with
      | none => none
      | some (us, st₂) => some (u :: us, st₂)

/-- `Number(value) || 1`: the permissive count normalisation. `none` stands
for `NaN` (an unparsable input); the only other falsy number is `0`. -/
def jsOrOne (v : Option ℚ) : ℚ :=
  match v with
  | none => 1
  | some x => if x == 0 then 1 else x

/-- The array length `Array.from({length: q}, …)` actually uses: the
integer part of `q`, clamped below at `0`. -/
def jsLength (q : ℚ) : ℕ := (⌊q⌋).toNat

/-! ## Ligature post-processing -/

/-- Global leftmost substring replacement of the non-empty pattern
`p₁ :: pr` by `r` — the semantics of
`acc.replace(new RegExp(pattern, "g"), replacement)` for a plain-text
pattern. -/
def replaceAllCore (p₁ : Char) (pr : List Char) (r : List Char) :
    List Char → List Char
  | [] => []
  | c :: cs =>
    if c = p₁ ∧ pr.isPrefixOf cs then
      r ++ replaceAllCore p₁ pr r (cs.drop pr.length)
    else
      c :: replaceAllCore p₁ pr r cs
termination_by s => s.length
decreasing_by
  · simp only [List.length_drop, List.length_cons]; omega
  · simp only [List.length_cons]; omega

/-- Total wrapper: an empty pattern never occurs in the shipped rules and
is modelled as the identity. -/
def replaceAll (p r s : List Char) : List Char :=
  match p with
  | [] => s
  | c :: pr => replaceAllCore c pr r s

/-- `fixLigatures(str)`: `ligatures.reduce((acc, [pattern, replacement]) =>
acc.replace(new RegExp(pattern, "g"), replacement), str)`. -/
def fixLigatures (rules : List (List Char × List Char)) (s : String) : String :=
  String.mk (rules.foldl (fun acc pr => replaceAll pr.1 pr.2 acc) s.data)

/-- Modelled from the spec: the repository's `ligatures.json` rule file is
not in the source tree (only `src/main.ts` imports it). Section 3 and
section 4.4 of the design describe it as an ordered list of
`[pattern, replacement]` string pairs, each applied as a global substring
replacement, "combining letter pairs into ligature glyphs". We model it as
the canonical French ligature pairs `oe → œ` and `ae → æ`. -/
def ligatureRules : List (List Char × List Char) :=
  [(['o', 'e'], ['œ']), (['a', 'e'], ['æ'])]

/-- `setup()`: clear both trackers, generate `Array.from({length: nbr})`
units, join them with the empty string, and post-process ligatures. The
returned string is the markup handed to the render sink. -/
def setup (d : Data) (fuel : ℕ) (rules : List (List Char × List Char))
    (s : Settings) (st : St) : Option (String × St) :=
  let st₀ := { st with usedWords := [], usedDictionary := [] }
  match setupUnits d fuel s.type (jsLength s.nbr) st₀ with
  | none => none
  | some (units, st₁) =>
    some (fixLigatures rules (String.join units), st₁)

/-! ## Summary builder -/

/-- JS `\s` for the character set this generator can emit. -/
def jsWs (c : Char) : Bool :=
  c = ' ' ∨ c = '\t' ∨ c = '\n' ∨ c = '\r'

/-- `text.split(/\s+/)`: maximal whitespace runs separate the pieces;
leading or trailing runs contribute empty edge pieces, exactly as the JS
regex split does. The flag records whether the previous character belonged
to a whitespace run. -/
def splitWsGo : List Char → List Char → Bool → List String
  | [], acc, _ => [String.mk acc.reverse]
  | c :: cs, acc, inRun =>
    if jsWs c then
      if inRun then splitWsGo cs [] true
      else String.mk acc.reverse :: splitWsGo cs [] true
    else splitWsGo cs (c :: acc) false

/-- `text.split(/\s+/).length`. -/
def splitWsCount (s : String) : ℕ := (splitWsGo s.data [] false).length

/-- The character class `[A-Za-z]` of the summary's character count. -/
def isAsciiLetter (c : Char) : Bool :=
  ('A' ≤ c ∧ c ≤ 'Z') ∨ ('a' ≤ c ∧ c ≤ 'z')

/-- `text.replace(/[^A-Za-z]/g, "").length`. -/
def alphaCount (s : String) : ℕ := (s.data.filter isAsciiLetter).length

/-- Template-literal interpolation of the count number. -/
def jsNum (q : ℚ) : String :=
  if q.den == 1 then toString q.num else toString q

/-- The mode-specific noun phrase of the resume line. -/
def translationOf (s : Settings) : String :=
  match s.type with
  | IpsumType.Paragraphs => jsNum s.nbr ++ " paragraphes"
  | IpsumType.Sentences => jsNum s.nbr ++ " phrases"
  | IpsumType.Words => jsNum s.nbr ++ " mots"
  | IpsumType.Lists => "Une liste à " ++ jsNum s.nbr ++ " points"

/-- `updateResume(text)`: the resume string built by the `+=` chain of the
source (the multi-line template literal keeps its newline and indent). -/
def updateResume (s : Settings) (text : String) : String :=
  let resume := translationOf s
  let resume :=
    if s.type ≠ IpsumType.Words then
      resume ++ ", " ++ toString (splitWsCount text) ++ " mots"
    else resume
  resume ++ ", " ++ toString (alphaCount text) ++ " caractères de \n      <a href=\"" ++
    s.url ++ "\">Lee<em>psum</em></a> généré"

/-! ## Specification vocabulary used by the theorems -/

/-- Iterated FIFO update: the recent-index memory after a run of accepted
draws. -/
def pushAll (u : List ℤ) (is : List ℤ) : List ℤ :=
  is.foldl fifoPush u

/-- An occurrence of the two-character pattern `p₁ p₂` somewhere in a
character list. -/
def hasPair (p₁ p₂ : Char) : List Char → Bool
  | a :: b :: rest => (a = p₁ ∧ b = p₂) || hasPair p₁ p₂ (b :: rest)
  | _ => false

/-- The mode-appropriate markup of one top-level unit: sentences and words
carry one trailing space, paragraphs and list items carry their wrapper
tags; word units are one piece of the space-split of a pool item (or the
stringified `undefined` of an out-of-range piece index). -/
def unitShape (d : Data) (type : IpsumType) (u : String) : Prop :=
  match type with
  | IpsumType.Sentences => ∃ b, u = b ++ " "
  | IpsumType.Words =>
    ∃ w, u = w ++ " " ∧
      (w = "undefined" ∨ ∃ item ∈ wordsArr d, w ∈ item.splitOn " ")
  | IpsumType.Paragraphs => ∃ b, u = "<p>" ++ b ++ "</p>"
  | IpsumType.Lists => ∃ b, u = "<li>" ++ b ++ "</li>"

/-! ## Concrete instances used by counterexamples and witnesses -/

/-- The all-zeros random stream. -/
def cst0 : ℕ → ℚ := fun _ => 0

/-- A fresh state over the all-zeros stream. -/
def stW : St := ⟨cst0, 0, [], []⟩

/-- A store with one single-literal sentence structure and no entries. -/
def dW : Data := ⟨[["howdy"]], []⟩

/-- A store whose only structure references an undefined section. -/
def dG : Data := ⟨[["?ghost"]], []⟩

/-- A store whose only structure is an optional-marker category reference
to an undefined name. -/
def dStar : Data := ⟨[["*ghost"]], []⟩

/-- The state after the `dStar` sentence: two random draws consumed. -/
def stW2 : St := ⟨cst0, 2, [], []⟩

/-- A store holding an empty flat pool. -/
def dE : Data := ⟨[], [("t", Entry.arr [])]⟩

/-- The state reached after one draw from the empty pool of `dE`. -/
def stE1 : St := ⟨cst0, 1, [("t", [0])], []⟩

/-- A store holding one six-entry flat pool. -/
def d6 : Data := ⟨[], [("t", Entry.arr ["a", "b", "c", "d", "e", "f"])]⟩

/-- A stream producing the successive indices 0, 1, 2, 3, 4 on the pool of
`d6`. -/
def str6 : ℕ → ℚ := fun n => (n : ℚ) / 6

def st60 : St := ⟨str6, 0, [], []⟩
def st61 : St := ⟨str6, 1, [("t", [0])], []⟩
def st62 : St := ⟨str6, 2, [("t", [0, 1])], []⟩
def st63 : St := ⟨str6, 3, [("t", [0, 1, 2])], []⟩
def st64 : St := ⟨str6, 4, [("t", [0, 1, 2, 3])], []⟩
def st65 : St := ⟨str6, 5, [("t", [1, 2, 3, 4])], []⟩

/-- A sub-component pool that is always required. -/
def scItem : SubComp :=
  { required := 1, values := ["cowboy", "sheriff", "ranger", "outlaw", "marshal"],
    default := none }

/-- A well-formed gendered section type. -/
def heroesObj : TypeObj :=
  { options := none, sep := [], struct := ["item"],
    m := [("single", [("item", scItem)])],
    f := [("single", [("item", scItem)])] }

/-- A store whose only structure opens with the section token `?heroes`. -/
def dC5 : Data := ⟨[["?heroes"]], [("heroes", Entry.obj heroesObj)]⟩

/-- A section type carrying one separator, for the merge witness. -/
def sepObj : TypeObj := ⟨none, [" et "], [], [], []⟩

def pA : PartialResult := ⟨"cowhand", "le cowboy", "m", "single"⟩
def pB : PartialResult := ⟨"cowhand", "la pionniere", "f", "single"⟩

/-- The state after the witness paragraph run: six random draws consumed. -/
def stW6 : St := ⟨cst0, 6, [], []⟩

/-! ## Basic lemmas about the random indexing -/

theorem jsGet_mem {α : Type} {arr : List α} {q : ℚ} {x : α}
    (h : jsGet arr q = some x) : x ∈ arr := by
  simp only [jsGet] at h
  split at h
  · exact List.get?_mem h
  · exact absurd h (by simp)

theorem jsGet_total {α : Type} (arr : List α) (q : ℚ)
    (h0 : 0 ≤ q) (h1 : q < 1) (hne : arr ≠ []) :
    ∃ x, jsGet arr q = some x ∧ x ∈ arr := by
  have hlen : 0 < (arr.length : ℚ) := by
    have := List.length_pos.mpr hne
    exact_mod_cast this
  have hnn : (0 : ℤ) ≤ ⌊q * (arr.length : ℚ)⌋ :=
    Int.floor_nonneg.mpr (mul_nonneg h0 (le_of_lt hlen))
  have hlt : ⌊q * (arr.length : ℚ)⌋ < (arr.length : ℤ) := by
    apply Int.floor_lt.mpr
    push_cast
    calc q * (arr.length : ℚ) < 1 * (arr.length : ℚ) :=
          mul_lt_mul_of_pos_right h1 hlen
      _ = (arr.length : ℚ) := one_mul _
  have hltn : (⌊q * (arr.length : ℚ)⌋).toNat < arr.length := by omega
  cases hg : arr.get? (⌊q * (arr.length : ℚ)⌋).toNat with
  | none =>
    have := List.get?_eq_none.mp hg
    omega
  | some x =>
    refine ⟨x, ?_, List.get?_mem hg⟩
    simp only [jsGet]
    rw [if_pos hnn]
    exact hg

/-! ## Lemmas about the recent-index memory -/

theorem memOf_map_update (es : List (String × List ℤ)) (t : String)
    (v : List ℤ) (hin : es.any (fun e => e.1 == t) = true) :
    memOf (es.map (fun e => if e.1 == t then (e.1, v) else e)) t = v := by
  induction es with
  | nil => simp at hin
  | cons e es ih =>
    by_cases he : (e.1 == t) = true
    · rw [List.map_cons, if_pos he]
      simp only [memOf, List.find?_cons, he]
      rfl
    · have hne : e.1 ≠ t := fun h => he (beq_iff_eq.mpr h)
      have hbf : (e.1 == t) = false := beq_eq_false_iff_ne.mpr hne
      rw [List.map_cons, if_neg he]
      simp only [List.any_cons, hbf, Bool.false_or] at hin
      simp only [memOf, List.find?_cons, hbf]
      simpa only [memOf] using ih hin

theorem memOf_append_new (es : List (String × List ℤ)) (t : String)
    (v : List ℤ) (hout : ¬ es.any (fun e => e.1 == t) = true) :
    memOf (es ++ [(t, v)]) t = v := by
  induction es with
  | nil => simp [memOf, List.find?_cons]
  | cons e es ih =>
    simp only [List.any_cons, Bool.or_eq_true, not_or] at hout
    have hbf : (e.1 == t) = false := by
      cases h : (e.1 == t) with
      | true => exact absurd h hout.1
      | false => rfl
    simp only [List.cons_append, memOf, List.find?_cons, hbf]
    simpa only [memOf] using ih (by simpa using hout.2)

theorem memOf_setUsed_self (uw : List (String × List ℤ)) (t : String)
    (v : List ℤ) : memOf (setUsed uw t v) t = v := by
  unfold setUsed
  by_cases hany : uw.any (fun e => e.1 == t) = true
  · rw [if_pos hany]
    exact memOf_map_update uw t v hany
  · rw [if_neg hany]
    exact memOf_append_new uw t v hany

theorem memOf_map_ne (es : List (String × List ℤ)) (t s : String)
    (v : List ℤ) (hne : s ≠ t) :
    memOf (es.map (fun e => if e.1 == t then (e.1, v) else e)) s =
      memOf es s := by
  induction es with
  | nil => rfl
  | cons e es ih =>
    by_cases he : (e.1 == t) = true
    · have h1 : e.1 = t := beq_iff_eq.mp he
      have h2 : (e.1 == s) = false :=
        beq_eq_false_iff_ne.mpr (by rw [h1]; exact fun h => hne h.symm)
      rw [List.map_cons, if_pos he]
      simp only [memOf, List.find?_cons, h2]
      simpa only [memOf] using ih
    · rw [List.map_cons, if_neg he]
      by_cases hs : (e.1 == s) = true
      · simp only [memOf, List.find?_cons, hs]
      · have hsf : (e.1 == s) = false := by
          cases h : (e.1 == s) with
          | true => exact absurd h hs
          | false => rfl
        simp only [memOf, List.find?_cons, hsf]
        simpa only [memOf] using ih

theorem memOf_append_ne (es : List (String × List ℤ)) (t s : String)
    (v : List ℤ) (hne : s ≠ t) :
    memOf (es ++ [(t, v)]) s = memOf es s := by
  induction es with
  | nil =>
    have h2 : (t == s) = false :=
      beq_eq_false_iff_ne.mpr (fun h => hne h.symm)
    simp [memOf, List.find?_cons, h2]
  | cons e es ih =>
    by_cases hs : (e.1 == s) = true
    · simp only [List.cons_append, memOf, List.find?_cons, hs]
    · have hsf : (e.1 == s) = false := by
        cases h : (e.1 == s) with
        | true => exact absurd h hs
        | false => rfl
      simp only [List.cons_append, memOf, List.find?_cons, hsf]
      simpa only [memOf] using ih

theorem memOf_setUsed_ne (uw : List (String × List ℤ)) (t s : String)
    (v : List ℤ) (hne : s ≠ t) : memOf (setUsed uw t v) s = memOf uw s := by
  unfold setUsed
  split
  · exact memOf_map_ne uw t s v hne
  · exact memOf_append_ne uw t s v hne

theorem fifoPush_suffix (u : List ℤ) (i : ℤ) : fifoPush u i <:+ u ++ [i] := by
  show (if (u ++ [i]).length > 4 then (u ++ [i]).tail else (u ++ [i])) <:+ u ++ [i]
  split
  · exact List.tail_suffix _
  · exact List.suffix_refl _

theorem fifoPush_length (u : List ℤ) (i : ℤ) (h : u.length ≤ 4) :
    (fifoPush u i).length = min (u.length + 1) 4 := by
  show (if (u ++ [i]).length > 4 then (u ++ [i]).tail else (u ++ [i])).length =
    min (u.length + 1) 4
  split
  · simp_all [List.length_tail]
    omega
  · simp_all

theorem suffix_append_same {α : Type} {s u : List α} (h : s <:+ u)
    (r : List α) : s ++ r <:+ u ++ r := by
  obtain ⟨w, rfl⟩ := h
  exact ⟨w, (List.append_assoc _ _ _).symm⟩

theorem suffix_of_suffix_length_le {α : Type} {s r l : List α}
    (h1 : s <:+ l) (h2 : r <:+ l) (h : s.length ≤ r.length) : s <:+ r := by
  rw [← List.reverse_prefix] at h1 h2 ⊢
  exact List.prefix_of_prefix_length_le h1 h2 (by simpa using h)

theorem pushAll_suffix (is : List ℤ) : ∀ u, pushAll u is <:+ u ++ is := by
  induction is with
  | nil => intro u; simp [pushAll]
  | cons i is ih =>
    intro u
    have h1 : pushAll u (i :: is) = pushAll (fifoPush u i) is := rfl
    have h2 := (ih (fifoPush u i)).trans
      (suffix_append_same (fifoPush_suffix u i) is)
    rw [h1]
    have h3 : (u ++ [i]) ++ is = u ++ i :: is := by
      rw [List.append_assoc]; rfl
    rw [h3] at h2
    exact h2

theorem pushAll_length (is : List ℤ) : ∀ u, u.length ≤ 4 →
    (pushAll u is).length = min (u.length + is.length) 4 := by
  induction is with
  | nil => intro u h; simp [pushAll]; omega
  | cons i is ih =>
    intro u h
    have h1 := fifoPush_length u i h
    have h2 : (fifoPush u i).length ≤ 4 := by omega
    have h3 := ih (fifoPush u i) h2
    have h4 : pushAll u (i :: is) = pushAll (fifoPush u i) is := rfl
    rw [h4, h3, h1]
    simp only [List.length_cons]
    omega

theorem mem_pushAll (u is : List ℤ) (hu : u.length ≤ 4) (his : is.length ≤ 4) :
    ∀ j ∈ is, j ∈ pushAll u is := by
  intro j hj
  have h2 : is <:+ u ++ is := List.suffix_append u is
  have hlen : is.length ≤ (pushAll u is).length := by
    rw [pushAll_length is u hu]; omega
  exact (suffix_of_suffix_length_le h2 (pushAll_suffix is u) hlen).subset hj

/-! ## Behaviour of the index-recency draw -/

theorem grw_spec (d : Data) (t : String) :
    ∀ (fuel : ℕ) (st : St) (w : Option String) (st' : St),
    getRandomWord d t fuel st = some (w, st') →
    st'.stream = st.stream ∧ st'.usedDictionary = st.usedDictionary ∧
    ∃ i : ℤ, i ∉ memOf st.usedWords t ∧
      st'.usedWords = setUsed st.usedWords t (fifoPush (memOf st.usedWords t) i) := by
  intro fuel
  induction fuel with
  | zero =>
    intro st w st' h
    exact absurd h (by simp [getRandomWord])
  | succ n ih =>
    intro st w st' h
    rw [getRandomWord] at h
    split at h
    case h_2 => exact absurd h (by simp)
    case h_1 list heq =>
      simp only [rand] at h
      split at h
      case isTrue hidx =>
        simp only [Option.some.injEq, Prod.mk.injEq] at h
        obtain ⟨hw, hst'⟩ := h
        subst hst'
        refine ⟨rfl, rfl, ⌊st.stream st.pos * (list.length : ℚ)⌋, hidx, rfl⟩
      case isFalse hidx =>
        obtain ⟨h1, h2, i, hi, huw⟩ := ih _ _ _ h
        exact ⟨h1, h2, i, hi, huw⟩

theorem grw_mem_transition (d : Data) (t : String) (fuel : ℕ) (st : St)
    (w : Option String) (st' : St)
    (h : getRandomWord d t fuel st = some (w, st')) :
    ∃ i : ℤ, i ∉ memOf st.usedWords t ∧
      memOf st'.usedWords t = fifoPush (memOf st.usedWords t) i ∧
      ∀ s, s ≠ t → memOf st'.usedWords s = memOf st.usedWords s := by
  obtain ⟨-, -, i, hi, huw⟩ := grw_spec d t fuel st w st' h
  refine ⟨i, hi, ?_, ?_⟩
  · rw [huw, memOf_setUsed_self]
  · intro s hs
    rw [huw, memOf_setUsed_ne _ _ _ _ hs]

theorem grw_cap (d : Data) (t : String) (fuel : ℕ) (st : St)
    (w : Option String) (st' : St)
    (h : getRandomWord d t fuel st = some (w, st'))
    (hcap : ∀ s, (memOf st.usedWords s).length ≤ 4) :
    ∀ s, (memOf st'.usedWords s).length ≤ 4 := by
  obtain ⟨i, hi, hm, ho⟩ := grw_mem_transition d t fuel st w st' h
  intro s
  by_cases hst : s = t
  · subst hst
    rw [hm, fifoPush_length _ _ (hcap s)]
    omega
  · rw [ho s hst]
    exact hcap s

theorem grw_terminates_iff (d : Data) (t : String) (list : List String)
    (h : d.find t = some (Entry.arr list)) :
    ∀ (fuel : ℕ) (st : St),
    getRandomWord d t fuel st ≠ none ↔
      ∃ k, k < fuel ∧
        (⌊st.stream (st.pos + k) * (list.length : ℚ)⌋ : ℤ) ∉
          memOf st.usedWords t := by
  intro fuel
  induction fuel with
  | zero =>
    intro st
    simp [getRandomWord]
  | succ n ih =>
    intro st
    rw [getRandomWord, h]
    simp only [rand]
    split
    case isTrue hidx =>
      constructor
      · intro _
        exact ⟨0, Nat.succ_pos n, by simpa using hidx⟩
      · intro _
        simp
    case isFalse hidx =>
      rw [ih]
      constructor
      · rintro ⟨k, hk, hmem⟩
        refine ⟨k + 1, by omega, ?_⟩
        have : st.pos + 1 + k = st.pos + (k + 1) := by omega
        simpa [this] using hmem
      · rintro ⟨k, hk, hmem⟩
        cases k with
        | zero =>
          rw [not_not] at hidx
          exact absurd (by simpa using hmem) (by simpa using hidx)
        | succ k =>
          refine ⟨k, by omega, ?_⟩
          have : st.pos + (k + 1) = st.pos + 1 + k := by omega
          simpa [this] using hmem

theorem free_index_exists (list : List String) (used : List ℤ)
    (h5 : 4 < list.length) (hc : used.length ≤ 4) :
    ∃ i : ℤ, 0 ≤ i ∧ i < (list.length : ℤ) ∧ i ∉ used := by
  by_contra hno
  push_neg at hno
  have hlen : (5 : ℤ) ≤ (list.length : ℤ) := by exact_mod_cast h5
  have hsub : ([0, 1, 2, 3, 4] : List ℤ) ⊆ used := by
    intro i hi
    have hb : 0 ≤ i ∧ i ≤ 4 := by fin_cases hi <;> omega
    exact hno i hb.1 (by omega)
  have hnd : ([0, 1, 2, 3, 4] : List ℤ).Nodup := by decide
  have := (hnd.subperm hsub).length_le
  simp at this
  omega

set_option maxHeartbeats 1000000 in
/-- C6: across any generation run, a category's recent-index memory never
holds more than 4 indices; every accepted draw uses an index that is not in
the memory and pushes it FIFO (the 5th distinct accepted draw evicts the
oldest); and the accepted indices of any 5 consecutive successful draws
from the same category are pairwise distinct, so no index repeats within a
sliding window of 5 draws. -/
theorem c6_index_memory (d : Data) (t : String) (f₁ f₂ f₃ f₄ f₅ : ℕ)
    (st₀ st₁ st₂ st₃ st₄ st₅ : St) (w₁ w₂ w₃ w₄ w₅ : Option String)
    (hcap : ∀ s, (memOf st₀.usedWords s).length ≤ 4)
    (h₁ : getRandomWord d t f₁ st₀ = some (w₁, st₁))
    (h₂ : getRandomWord d t f₂ st₁ = some (w₂, st₂))
    (h₃ : getRandomWord d t f₃ st₂ = some (w₃, st₃))
    (h₄ : getRandomWord d t f₄ st₃ = some (w₄, st₄))
    (h₅ : getRandomWord d t f₅ st₄ = some (w₅, st₅)) :
    (∀ s, (memOf st₅.usedWords s).length ≤ 4) ∧
    ∃ i₁ i₂ i₃ i₄ i₅ : ℤ,
      i₁ ∉ memOf st₀.usedWords t ∧
      memOf st₁.usedWords t = fifoPush (memOf st₀.usedWords t) i₁ ∧
      i₂ ∉ memOf st₁.usedWords t ∧
      memOf st₂.usedWords t = fifoPush (memOf st₁.usedWords t) i₂ ∧
      i₃ ∉ memOf st₂.usedWords t ∧
      memOf st₃.usedWords t = fifoPush (memOf st₂.usedWords t) i₃ ∧
      i₄ ∉ memOf st₃.usedWords t ∧
      memOf st₄.usedWords t = fifoPush (memOf st₃.usedWords t) i₄ ∧
      i₅ ∉ memOf st₄.usedWords t ∧
      memOf st₅.usedWords t = fifoPush (memOf st₄.usedWords t) i₅ ∧
      [i₁, i₂, i₃, i₄, i₅].Pairwise (fun a b => a ≠ b) := by
  have hc1 := grw_cap d t f₁ st₀ w₁ st₁ h₁ hcap
  have hc2 := grw_cap d t f₂ st₁ w₂ st₂ h₂ hc1
  have hc3 := grw_cap d t f₃ st₂ w₃ st₃ h₃ hc2
  have hc4 := grw_cap d t f₄ st₃ w₄ st₄ h₄ hc3
  have hc5 := grw_cap d t f₅ st₄ w₅ st₅ h₅ hc4
  obtain ⟨i₁, hi₁, hm₁, -⟩ := grw_mem_transition d t f₁ st₀ w₁ st₁ h₁
  obtain ⟨i₂, hi₂, hm₂, -⟩ := grw_mem_transition d t f₂ st₁ w₂ st₂ h₂
  obtain ⟨i₃, hi₃, hm₃, -⟩ := grw_mem_transition d t f₃ st₂ w₃ st₃ h₃
  obtain ⟨i₄, hi₄, hm₄, -⟩ := grw_mem_transition d t f₄ st₃ w₄ st₄ h₄
  obtain ⟨i₅, hi₅, hm₅, -⟩ := grw_mem_transition d t f₅ st₄ w₅ st₅ h₅
  refine ⟨hc5, i₁, i₂, i₃, i₄, i₅,
    hi₁, hm₁, hi₂, hm₂, hi₃, hm₃, hi₄, hm₄, hi₅, hm₅, ?_⟩
  have hl0 := hcap t
  rw [hm₁] at hi₂ hm₂
  rw [hm₂] at hi₃ hm₃
  rw [hm₃] at hi₄ hm₄
  rw [hm₄] at hi₅
  have e2 : pushAll (memOf st₀.usedWords t) [i₁] =
      fifoPush (memOf st₀.usedWords t) i₁ := by
    simp only [pushAll, List.foldl_cons, List.foldl_nil]
  have e3 : pushAll (memOf st₀.usedWords t) [i₁, i₂] =
      fifoPush (fifoPush (memOf st₀.usedWords t) i₁) i₂ := by
    simp only [pushAll, List.foldl_cons, List.foldl_nil]
  have e4 : pushAll (memOf st₀.usedWords t) [i₁, i₂, i₃] =
      fifoPush (fifoPush (fifoPush (memOf st₀.usedWords t) i₁) i₂) i₃ := by
    simp only [pushAll, List.foldl_cons, List.foldl_nil]
  have e5 : pushAll (memOf st₀.usedWords t) [i₁, i₂, i₃, i₄] =
      fifoPush (fifoPush (fifoPush (fifoPush
        (memOf st₀.usedWords t) i₁) i₂) i₃) i₄ := by
    simp only [pushAll, List.foldl_cons, List.foldl_nil]
  rw [← e2] at hi₂
  rw [← e3] at hi₃
  rw [← e4] at hi₄
  rw [← e5] at hi₅
  have A21 : i₁ ∈ pushAll (memOf st₀.usedWords t) [i₁] :=
    mem_pushAll (memOf st₀.usedWords t) [i₁] hl0 (by simp) i₁ (by simp)
  have A31 : i₁ ∈ pushAll (memOf st₀.usedWords t) [i₁, i₂] :=
    mem_pushAll (memOf st₀.usedWords t) [i₁, i₂] hl0 (by simp) i₁ (by simp)
  have A32 : i₂ ∈ pushAll (memOf st₀.usedWords t) [i₁, i₂] :=
    mem_pushAll (memOf st₀.usedWords t) [i₁, i₂] hl0 (by simp) i₂ (by simp)
  have A41 : i₁ ∈ pushAll (memOf st₀.usedWords t) [i₁, i₂, i₃] :=
    mem_pushAll (memOf st₀.usedWords t) [i₁, i₂, i₃] hl0 (by simp) i₁ (by simp)
  have A42 : i₂ ∈ pushAll (memOf st₀.usedWords t) [i₁, i₂, i₃] :=
    mem_pushAll (memOf st₀.usedWords t) [i₁, i₂, i₃] hl0 (by simp) i₂ (by simp)
  have A43 : i₃ ∈ pushAll (memOf st₀.usedWords t) [i₁, i₂, i₃] :=
    mem_pushAll (memOf st₀.usedWords t) [i₁, i₂, i₃] hl0 (by simp) i₃ (by simp)
  have A51 : i₁ ∈ pushAll (memOf st₀.usedWords t) [i₁, i₂, i₃, i₄] :=
    mem_pushAll (memOf st₀.usedWords t) [i₁, i₂, i₃, i₄] hl0 (by simp) i₁ (by simp)
  have A52 : i₂ ∈ pushAll (memOf st₀.usedWords t) [i₁, i₂, i₃, i₄] :=
    mem_pushAll (memOf st₀.usedWords t) [i₁, i₂, i₃, i₄] hl0 (by simp) i₂ (by simp)
  have A53 : i₃ ∈ pushAll (memOf st₀.usedWords t) [i₁, i₂, i₃, i₄] :=
    mem_pushAll (memOf st₀.usedWords t) [i₁, i₂, i₃, i₄] hl0 (by simp) i₃ (by simp)
  have A54 : i₄ ∈ pushAll (memOf st₀.usedWords t) [i₁, i₂, i₃, i₄] :=
    mem_pushAll (memOf st₀.usedWords t) [i₁, i₂, i₃, i₄] hl0 (by simp) i₄ (by simp)
  have ne21 : i₂ ≠ i₁ := fun h => hi₂ (by rw [h]; exact A21)
  have ne31 : i₃ ≠ i₁ := fun h => hi₃ (by rw [h]; exact A31)
  have ne32 : i₃ ≠ i₂ := fun h => hi₃ (by rw [h]; exact A32)
  have ne41 : i₄ ≠ i₁ := fun h => hi₄ (by rw [h]; exact A41)
  have ne42 : i₄ ≠ i₂ := fun h => hi₄ (by rw [h]; exact A42)
  have ne43 : i₄ ≠ i₃ := fun h => hi₄ (by rw [h]; exact A43)
  have ne51 : i₅ ≠ i₁ := fun h => hi₅ (by rw [h]; exact A51)
  have ne52 : i₅ ≠ i₂ := fun h => hi₅ (by rw [h]; exact A52)
  have ne53 : i₅ ≠ i₃ := fun h => hi₅ (by rw [h]; exact A53)
  have ne54 : i₅ ≠ i₄ := fun h => hi₅ (by rw [h]; exact A54)
  refine List.Pairwise.cons ?_ (List.Pairwise.cons ?_ (List.Pairwise.cons ?_
    (List.Pairwise.cons ?_ (List.pairwise_singleton _ _))))
  · intro a ha
    simp only [List.mem_cons, List.not_mem_nil, or_false] at ha
    rcases ha with rfl | rfl | rfl | rfl
    · exact ne21.symm
    · exact ne31.symm
    · exact ne41.symm
    · exact ne51.symm
  · intro a ha
    simp only [List.mem_cons, List.not_mem_nil, or_false] at ha
    rcases ha with rfl | rfl | rfl
    · exact ne32.symm
    · exact ne42.symm
    · exact ne52.symm
  · intro a ha
    simp only [List.mem_cons, List.not_mem_nil, or_false] at ha
    rcases ha with rfl | rfl
    · exact ne43.symm
    · exact ne53.symm
  · intro a ha
    simp only [List.mem_cons, List.not_mem_nil, or_false] at ha
    rcases ha with rfl
    · exact ne54.symm

theorem c6_index_memory_witness :
    getRandomWord d6 "t" 1 st64 = some (some "e", st65) ∧
    (memOf st65.usedWords "t").length ≤ 4 :=
  ⟨by with_unfolding_all rfl,
   (c6_index_memory d6 "t" 1 1 1 1 1 st60 st61 st62 st63 st64 st65
      (some "a") (some "b") (some "c") (some "d") (some "e")
      (by intro s; simp [st60, memOf])
      (by with_unfolding_all rfl) (by with_unfolding_all rfl)
      (by with_unfolding_all rfl) (by with_unfolding_all rfl)
      (by with_unfolding_all rfl)).1 "t"⟩

/-- C2 counterexample: drawing from an *empty* candidate pool does not
raise a configuration error — the first draw succeeds immediately and
silently returns the JS `undefined`, recording index 0 in the category's
recency memory. -/
theorem c2_draw_counterexample :
    getRandomWord dE "t" 1 stW = some (none, stE1) := by
  with_unfolding_all rfl

/-- C2 amended: a category draw terminates exactly when the random stream
yields, within the available draws, an index outside the recent-index
memory; an empty pool is not detected (the first draw silently returns
`undefined`, and once index 0 is in the memory every further draw on the
empty pool fails to terminate for any amount of fuel); for a pool with
more than 4 entries a free index always exists, so termination holds with
probability 1 under fair randomness, but not for every stream. -/
theorem c2_draw_amended (d : Data) (t : String) (list : List String)
    (h : d.find t = some (Entry.arr list)) (fuel : ℕ) (st : St) :
    (getRandomWord d t fuel st ≠ none ↔
      ∃ k, k < fuel ∧
        (⌊st.stream (st.pos + k) * (list.length : ℚ)⌋ : ℤ) ∉
          memOf st.usedWords t) ∧
    (list = [] → (0 : ℤ) ∈ memOf st.usedWords t →
      getRandomWord d t fuel st = none) ∧
    (4 < list.length → (memOf st.usedWords t).length ≤ 4 →
      ∃ i : ℤ, 0 ≤ i ∧ i < (list.length : ℤ) ∧ i ∉ memOf st.usedWords t) := by
  refine ⟨grw_terminates_iff d t list h fuel st, ?_, ?_⟩
  · intro hnil hmem
    by_contra hne
    obtain ⟨k, -, hk⟩ := (grw_terminates_iff d t list h fuel st).mp hne
    apply hk
    subst hnil
    simpa using hmem
  · exact free_index_exists list _

theorem c2_draw_amended_witness :
    getRandomWord dE "t" 3 stE1 = none :=
  (c2_draw_amended dE "t" [] (by with_unfolding_all rfl) 3 stE1).2.1 rfl
    (by simp [stE1, memOf])

/-! ## Dangling section references -/

theorem sentenceTokens_fail (d : Data) (sname : String)
    (h : d.find sname = none) (fuel : ℕ) :
    ∀ (toks : List String) (tok : String), tok ∈ toks →
    tok.data = '?' :: sname.data →
    ∀ (parts : List String) (prot : Preset) (st : St),
    sentenceTokens d fuel toks parts prot st = none := by
  intro toks
  induction toks with
  | nil =>
    intro tok htok
    exact absurd htok (List.not_mem_nil tok)
  | cons t₀ rest ih =>
    intro tok htok hdata parts prot st
    by_cases ht : t₀.data = '?' :: sname.data
    · have hsec : getSection d sname prot st = none := by
        unfold getSection
        rw [h]
      have hstep : sentenceStep d fuel t₀ parts prot st = none := by
        have hh : t₀.data.head? = some '?' := by rw [ht]; rfl
        have htail : String.mk t₀.data.tail = sname := by
          rw [ht]
          show String.mk sname.data = sname
          rfl
        rw [sentenceStep, hh, htail]
        rw [if_neg (by decide), if_pos (by decide), hsec]
      rw [sentenceTokens, hstep]
    · have hm : tok ∈ rest := by
        rcases List.mem_cons.mp htok with rfl | hm
        · exact absurd hdata ht
        · exact hm
      rw [sentenceTokens]
      cases hstep : sentenceStep d fuel t₀ parts prot st with
      | none => rfl
      | some x =>
        obtain ⟨parts₁, prot₁, st₁⟩ := x
        exact ih tok hm hdata parts₁ prot₁ st₁

/-- C4 counterexample: the optional-marker category reference `*ghost`,
whose name has no entry in the template store, does not make processing
fail: on a stream that keeps the optional token (roll < 1/6) the sentence
completes and the unresolved name is emitted, marker-stripped and
capitalized, as the generated text. -/
theorem c4_missing_reference_counterexample :
    dStar.find "ghost" = none ∧
    generateSentence dStar 1 stW = some ("Ghost", stW2) :=
  ⟨by with_unfolding_all rfl, by with_unfolding_all rfl⟩

/-- C4 amended: an undefined *section* reference is fatal — `getSection`
fails for every preset and state, and a sentence whose selected structure
holds such a `?`-token produces no text at all, so the unresolved token is
never emitted. An undefined *category* reference, however, does not fail:
an unprefixed token whose name has no store entry is pushed unchanged into
the sentence text, and a `*`-prefixed (optional category) token that
survives its 1/6 inclusion roll is pushed marker-stripped — the unresolved
name is emitted as part of the generated text. -/
theorem c4_missing_reference (d : Data) (sname : String)
    (h : d.find sname = none) :
    (∀ (preset : Preset) (st : St), getSection d sname preset st = none) ∧
    (∀ (fuel : ℕ) (st : St) (toks : List String) (tok : String),
      jsGet d.structures (st.stream st.pos) = some toks →
      tok ∈ toks → tok.data = '?' :: sname.data →
      generateSentence d fuel st = none) ∧
    (∀ (fuel : ℕ) (parts : List String) (prot : Preset) (st : St),
      sname.data.head? ≠ some '*' → sname.data.head? ≠ some '?' →
      sentenceStep d fuel sname parts prot st =
        some (parts ++ [sname], prot, st)) ∧
    (∀ (fuel : ℕ) (tok : String) (parts : List String) (prot : Preset)
      (st : St), tok.data = '*' :: sname.data →
      st.stream st.pos < 1 / 6 →
      sentenceStep d fuel tok parts prot st =
        some (parts ++ [sname], prot, { st with pos := st.pos + 1 })) := by
  refine ⟨?_, ?_, ?_, ?_⟩
  · intro preset st
    unfold getSection
    rw [h]
  · intro fuel st toks tok hstruct htok hdata
    rw [generateSentence]
    simp only [randomFromArray, rand]
    rw [hstruct]
    dsimp only
    rw [sentenceTokens_fail d sname h fuel toks tok htok hdata]
  · intro fuel parts prot st h1 h2
    rw [sentenceStep]
    rw [if_neg (fun hc => h1 (beq_iff_eq.mp hc)),
      if_neg (fun hc => h2 (beq_iff_eq.mp hc))]
    have hc : categoryStep d fuel sname parts st =
        some (parts ++ [sname], st) := by
      rw [categoryStep, h]
    rw [hc]
  · intro fuel tok parts prot st hdata hlt
    rw [sentenceStep]
    have hh : tok.data.head? = some '*' := by rw [hdata]; rfl
    rw [hh]
    rw [if_pos (by decide)]
    simp only [rand]
    rw [if_neg (not_le.mpr hlt)]
    have htail : String.mk tok.data.tail = sname := by
      rw [hdata]
      show String.mk sname.data = sname
      rfl
    rw [htail]
    have hc : categoryStep d fuel sname parts { st with pos := st.pos + 1 } =
        some (parts ++ [sname], { st with pos := st.pos + 1 }) := by
      rw [categoryStep, h]
    rw [hc]

theorem c4_missing_reference_witness :
    getSection dStar "ghost" ⟨none, none⟩ stW = none ∧
    generateSentence dG 1 stW = none ∧
    sentenceStep dStar 1 "ghost" [] ⟨none, none⟩ stW =
      some (["ghost"], ⟨none, none⟩, stW) ∧
    sentenceStep dStar 1 "*ghost" [] ⟨none, none⟩ stW =
      some (["ghost"], ⟨none, none⟩, { stW with pos := 1 }) := by
  obtain ⟨h1, h2, h3, h4⟩ :=
    c4_missing_reference dStar "ghost" (by with_unfolding_all rfl)
  obtain ⟨g1, g2, -, -⟩ :=
    c4_missing_reference dG "ghost" (by with_unfolding_all rfl)
  refine ⟨h1 ⟨none, none⟩ stW, ?_, ?_, ?_⟩
  · exact g2 1 stW ["?ghost"] "?ghost" (by with_unfolding_all rfl) (by simp)
      (by decide)
  · have := h3 1 [] ⟨none, none⟩ stW (by decide) (by decide)
    simpa using this
  · have := h4 1 "*ghost" [] ⟨none, none⟩ stW (by decide)
      (by show (0 : ℚ) < 1 / 6; norm_num)
    simpa using this

/-- C5 (code bug): the sentence loop initialises its protagonist context
to the *present* empty strings `{ gender: "", number: "" }`, and `??` only
falls back on nullish values — so for a section token resolved before any
protagonists section has replaced the context, the coin toss the spec
prescribes never happens: the empty-string gender flows into
`typeObj[gender]` and the draw crashes in `Object.keys(undefined)`
(modelled as `none`). With a genuinely absent preset the coin toss and the
uniform number pick do happen, as the third conjunct shows on the same
store. -/
theorem c5_preset_gender_bug :
    generateSentence dC5 1 stW = none ∧
    getPartial dC5 "heroes" ⟨some "", some ""⟩ stW = none ∧
    (getPartial dC5 "heroes" ⟨none, none⟩ stW).map Prod.fst =
      some { type := "heroes", text := "cowboy", gender := "f",
             number := "single" } :=
  ⟨by with_unfolding_all rfl, by with_unfolding_all rfl,
   by with_unfolding_all rfl⟩

/-! ## The used-value dictionary only grows during a run -/

theorem dict_mono_grnr (arr : List String) (st : St) (w : Option String)
    (st' : St) (h : getRandomNoRepeat arr st = some (w, st')) :
    st.usedDictionary ⊆ st'.usedDictionary := by
  rw [getRandomNoRepeat] at h
  simp only [randomFromArray, rand] at h
  split at h
  · exact absurd h (by simp)
  · split at h
    · simp only [Option.some.injEq, Prod.mk.injEq] at h
      obtain ⟨-, hst'⟩ := h
      subst hst'
      exact List.subset_append_left _ _
    · simp only [Option.some.injEq, Prod.mk.injEq] at h
      obtain ⟨-, hst'⟩ := h
      subst hst'
      exact List.Subset.refl _

theorem dict_mono_buildParts (obj : List (String × SubComp)) :
    ∀ (cats : List String) (st : St) (ps : List (Option String)) (st' : St),
    buildParts obj cats st = some (ps, st') →
    st.usedDictionary ⊆ st'.usedDictionary := by
  intro cats
  induction cats with
  | nil =>
    intro st ps st' h
    rw [buildParts] at h
    simp only [Option.some.injEq, Prod.mk.injEq] at h
    obtain ⟨-, hst'⟩ := h
    subst hst'
    exact List.Subset.refl _
  | cons c rest ih =>
    intro st ps st' h
    rw [buildParts] at h
    split at h
    · exact absurd h (by simp)
    · simp only [rand] at h
      split at h
      · -- required ≥ r : draw a no-repeat value
        split at h
        case h_1 => exact absurd h (by simp)
        case h_2 w₂ st₂ hg =>
          split at h
          case h_1 => exact absurd h (by simp)
          case h_2 ps₃ st₃ hb =>
            simp only [Option.some.injEq, Prod.mk.injEq] at h
            obtain ⟨-, hst'⟩ := h
            subst hst'
            exact (dict_mono_grnr _ _ _ _ hg).trans (ih _ _ _ hb)
      · -- use the default
        split at h
        case h_1 => exact absurd h (by simp)
        case h_2 ps₂ st₂ hb =>
          simp only [Option.some.injEq, Prod.mk.injEq] at h
          obtain ⟨-, hst'⟩ := h
          subst hst'
          have h2 := ih _ _ _ hb
          simpa using h2

theorem dict_mono_getPartial (d : Data) (type : String) (preset : Preset)
    (st : St) (p : PartialResult) (st' : St)
    (h : getPartial d type preset st = some (p, st')) :
    st.usedDictionary ⊆ st'.usedDictionary := by
  rw [getPartial] at h
  simp only [rand] at h
  rcases hpg : preset.gender with _ | g <;> rw [hpg] at h <;> dsimp only at h <;>
    rcases hpn : preset.number with _ | n <;> rw [hpn] at h <;> dsimp only at h <;>
    (repeat' split at h) <;>
    first
      | exact Option.noConfusion h
      | (simp only [Option.some.injEq, Prod.mk.injEq] at h
         obtain ⟨-, hst'⟩ := h
         subst hst'
         have h2 := dict_mono_buildParts _ _ _ _ _ (by assumption)
         simpa using h2)

theorem dict_mono_mapGetPartial (d : Data) (preset : Preset) :
    ∀ (ts : List String) (st : St) (ps : List PartialResult) (st' : St),
    mapGetPartial d ts preset st = some (ps, st') →
    st.usedDictionary ⊆ st'.usedDictionary := by
  intro ts
  induction ts with
  | nil =>
    intro st ps st' h
    rw [mapGetPartial] at h
    simp only [Option.some.injEq, Prod.mk.injEq] at h
    obtain ⟨-, hst'⟩ := h
    subst hst'
    exact List.Subset.refl _
  | cons t ts ih =>
    intro st ps st' h
    rw [mapGetPartial] at h
    split at h
    · exact Option.noConfusion h
    case h_2 p₁ st₁ hp =>
      split at h
      · exact Option.noConfusion h
      case h_2 ps₂ st₂ hm =>
        simp only [Option.some.injEq, Prod.mk.injEq] at h
        obtain ⟨-, hst'⟩ := h
        subst hst'
        exact (dict_mono_getPartial _ _ _ _ _ _ hp).trans (ih _ _ _ hm)

theorem dict_eq_mergeFold (tO : TypeObj) :
    ∀ (rest : List PartialResult) (base : PartialResult) (st : St),
    ((rest.foldl (fun acc p => mergeStep tO acc.1 p acc.2) (base, st)).2).usedDictionary
      = st.usedDictionary := by
  intro rest
  induction rest with
  | nil => intro base st; rfl
  | cons p rest ih =>
    intro base st
    rw [List.foldl_cons]
    exact ih _ _

theorem dict_eq_mergePartials (arr : List PartialResult) (type : String)
    (tO : TypeObj) (st : St) (res : PartialResult) (st' : St)
    (h : mergePartials arr type tO st = some (res, st')) :
    st'.usedDictionary = st.usedDictionary := by
  rw [mergePartials.eq_def] at h
  split at h
  · exact Option.noConfusion h
  case h_2 first rest =>
    simp only [Option.some.injEq, Prod.mk.injEq] at h
    obtain ⟨-, hst'⟩ := h
    subst hst'
    exact dict_eq_mergeFold tO rest first st

theorem dict_mono_getSection (d : Data) (name : String) (preset : Preset)
    (st : St) (p : PartialResult) (st' : St)
    (h : getSection d name preset st = some (p, st')) :
    st.usedDictionary ⊆ st'.usedDictionary := by
  rw [getSection] at h
  split at h
  · exact Option.noConfusion h
  · exact dict_mono_getPartial _ _ _ _ _ _ h
  case h_3 typeObj =>
    split at h
    · exact dict_mono_getPartial _ _ _ _ _ _ h
    case h_2 opts =>
      simp only [randomFromArray, rand] at h
      split at h
      · exact Option.noConfusion h
      · have h2 := dict_mono_getPartial _ _ _ _ _ _ h
        simpa using h2
      case h_3 names =>
        split at h
        · exact Option.noConfusion h
        case h_2 ps₂ st₂ hm =>
          have h2 := dict_mono_mapGetPartial _ _ _ _ _ _ hm
          have h3 := dict_eq_mergePartials _ _ _ _ _ _ h
          rw [h3]
          simpa using h2

theorem dict_mono_categoryStep (d : Data) (fuel : ℕ) (token : String)
    (parts : List String) (st : St) (parts' : List String) (st' : St)
    (h : categoryStep d fuel token parts st = some (parts', st')) :
    st.usedDictionary ⊆ st'.usedDictionary := by
  rw [categoryStep] at h
  split at h
  · split at h
    · exact Option.noConfusion h
    case h_2 w st₁ hg =>
      simp only [Option.some.injEq, Prod.mk.injEq] at h
      obtain ⟨-, hst'⟩ := h
      subst hst'
      obtain ⟨-, hdict, -⟩ := grw_spec _ _ _ _ _ _ hg
      rw [hdict]
      exact List.Subset.refl _
  · simp only [Option.some.injEq, Prod.mk.injEq] at h
    obtain ⟨-, hst'⟩ := h
    subst hst'
    exact List.Subset.refl _

theorem dict_mono_sentenceStep (d : Data) (fuel : ℕ) (token : String)
    (parts : List String) (prot : Preset) (st : St)
    (parts' : List String) (prot' : Preset) (st' : St)
    (h : sentenceStep d fuel token parts prot st = some (parts', prot', st')) :
    st.usedDictionary ⊆ st'.usedDictionary := by
  rw [sentenceStep] at h
  simp only [rand] at h
  split at h
  · -- optional token
    split at h
    · simp only [Option.some.injEq, Prod.mk.injEq] at h
      obtain ⟨-, -, hst'⟩ := h
      subst hst'
      exact List.Subset.refl _
    · split at h
      · exact Option.noConfusion h
      case h_2 parts₁ st₁ hc =>
        simp only [Option.some.injEq, Prod.mk.injEq] at h
        obtain ⟨-, -, hst'⟩ := h
        subst hst'
        have h2 := dict_mono_categoryStep _ _ _ _ _ _ _ hc
        simpa using h2
  · split at h
    · -- section token
      split at h
      · exact Option.noConfusion h
      case h_2 sec st₁ hs =>
        simp only [Option.some.injEq, Prod.mk.injEq] at h
        obtain ⟨-, -, hst'⟩ := h
        subst hst'
        exact dict_mono_getSection _ _ _ _ _ _ hs
    · split at h
      · exact Option.noConfusion h
      case h_2 parts₁ st₁ hc =>
        simp only [Option.some.injEq, Prod.mk.injEq] at h
        obtain ⟨-, -, hst'⟩ := h
        subst hst'
        exact dict_mono_categoryStep _ _ _ _ _ _ _ hc

theorem dict_mono_sentenceTokens (d : Data) (fuel : ℕ) :
    ∀ (toks : List String) (parts : List String) (prot : Preset) (st : St)
    (parts' : List String) (st' : St),
    sentenceTokens d fuel toks parts prot st = some (parts', st') →
    st.usedDictionary ⊆ st'.usedDictionary := by
  intro toks
  induction toks with
  | nil =>
    intro parts prot st parts' st' h
    rw [sentenceTokens] at h
    simp only [Option.some.injEq, Prod.mk.injEq] at h
    obtain ⟨-, hst'⟩ := h
    subst hst'
    exact List.Subset.refl _
  | cons t ts ih =>
    intro parts prot st parts' st' h
    rw [sentenceTokens] at h
    split at h
    · exact Option.noConfusion h
    case h_2 parts₁ prot₁ st₁ hs =>
      exact (dict_mono_sentenceStep _ _ _ _ _ _ _ _ _ hs).trans
        (ih _ _ _ _ _ h)

theorem dict_mono_generateSentence (d : Data) (fuel : ℕ) (st : St)
    (s : String) (st' : St)
    (h : generateSentence d fuel st = some (s, st')) :
    st.usedDictionary ⊆ st'.usedDictionary := by
  rw [generateSentence] at h
  simp only [randomFromArray, rand] at h
  split at h
  · exact Option.noConfusion h
  · split at h
    · exact Option.noConfusion h
    case h_2 parts st₂ hts =>
      simp only [Option.some.injEq, Prod.mk.injEq] at h
      obtain ⟨-, hst'⟩ := h
      subst hst'
      have h2 := dict_mono_sentenceTokens _ _ _ _ _ _ _ _ hts
      simpa using h2

/-- C7: the value-dictionary draw returns its first random pick exactly
when that pick is absent from the run-wide used-value set and longer than
3 characters, in which case the pick is added to the set; otherwise it
returns one unconditional second random pick, accepted without rechecking
the set or the length and leaving the set unchanged. A value accepted via
the first-pick branch is in the set from then on, the set only grows
within a run (shown for whole `generateSentence` calls), and a value in
the set can never satisfy the first-pick acceptance condition again. -/
theorem c7_value_dictionary (arr : List String) (st : St) (w : String) :
    (jsGet arr (st.stream st.pos) = some w → w ∉ st.usedDictionary →
      w.length > 3 →
      getRandomNoRepeat arr st =
        some (some w,
          { st with
              pos := st.pos + 1
              usedDictionary := st.usedDictionary ++ [w] }) ∧
        w ∈ st.usedDictionary ++ [w]) ∧
    (jsGet arr (st.stream st.pos) = some w →
      (w ∈ st.usedDictionary ∨ ¬ w.length > 3) →
      getRandomNoRepeat arr st =
        some (jsGet arr (st.stream (st.pos + 1)),
          { st with pos := st.pos + 2 })) ∧
    (w ∈ st.usedDictionary → ∀ st₂ : St,
      st.usedDictionary ⊆ st₂.usedDictionary →
      ¬ (w ∉ st₂.usedDictionary ∧ w.length > 3)) ∧
    (∀ (d : Data) (fuel : ℕ) (s : String) (st' : St),
      generateSentence d fuel st = some (s, st') →
      st.usedDictionary ⊆ st'.usedDictionary) := by
  refine ⟨?_, ?_, ?_, ?_⟩
  · intro hw hnot hlen
    constructor
    · rw [getRandomNoRepeat]
      simp only [randomFromArray, rand]
      rw [hw]
      dsimp only
      rw [if_pos (show w ∉ St.usedDictionary _ ∧ w.length > 3 from ⟨hnot, hlen⟩)]
    · simp
  · intro hw hcond
    rw [getRandomNoRepeat]
    simp only [randomFromArray, rand]
    rw [hw]
    dsimp only
    rw [if_neg (show ¬ (w ∉ St.usedDictionary _ ∧ w.length > 3) from ?_)]
    rcases hcond with hmem | hlen
    · exact fun hc => hc.1 hmem
    · exact fun hc => hlen hc.2
  · rintro hmem st₂ hsub ⟨hnot, -⟩
    exact hnot (hsub hmem)
  · intro d fuel s st' h
    exact dict_mono_generateSentence d fuel st s st' h

theorem c7_value_dictionary_witness :
    getRandomNoRepeat ["saloon", "gun"] stW =
      some (some "saloon",
        { stW with pos := 1, usedDictionary := ["saloon"] }) ∧
    "saloon" ∈ (stW.usedDictionary ++ ["saloon"]) := by
  have h := (c7_value_dictionary ["saloon", "gun"] stW "saloon").1
    (by with_unfolding_all rfl) (by simp [stW]) (by decide)
  exact ⟨h.1, h.2⟩

/-! ## Compound section merging -/

theorem mergeFold_spec (tO : TypeObj) (hs : tO.sep ≠ []) :
    ∀ (rest : List PartialResult) (base : PartialResult) (st : St),
    (∀ k, 0 ≤ st.stream k ∧ st.stream k < 1) →
    ∃ (res : PartialResult) (st' : St),
      rest.foldl (fun acc p => mergeStep tO acc.1 p acc.2) (base, st) = (res, st') ∧
      res.type = base.type ∧ res.number = base.number ∧
      res.gender =
        (if rest.all (fun p => p.gender == base.gender) then base.gender else "m") ∧
      ∃ seps : List String, seps.length = rest.length ∧
        (∀ x ∈ seps, x ∈ tO.sep) ∧
        res.text = (seps.zip (rest.map PartialResult.text)).foldl
          (fun acc q => acc ++ q.1 ++ q.2) base.text := by
  intro rest
  induction rest with
  | nil =>
    intro base st _
    exact ⟨base, st, rfl, rfl, rfl, by simp, [], rfl, by simp, rfl⟩
  | cons p rest ih =>
    intro base st hq
    obtain ⟨x, hx, hxm⟩ := jsGet_total tO.sep (st.stream st.pos)
      (hq st.pos).1 (hq st.pos).2 hs
    have hstep : mergeStep tO base p st =
        ({ base with
             gender := if p.gender != base.gender then "m" else base.gender
             text := base.text ++ x ++ p.text },
         { st with pos := st.pos + 1 }) := by
      rw [mergeStep]
      simp only [randomFromArray, rand, hx, jsStr]
    obtain ⟨res, st', hfold, hty, hnum, hg, seps, hlen, hmem, htext⟩ :=
      ih ({ base with
              gender := if p.gender != base.gender then "m" else base.gender
              text := base.text ++ x ++ p.text })
        ({ st with pos := st.pos + 1 }) (fun k => hq k)
    refine ⟨res, st', ?_, hty, hnum, ?_, x :: seps, by simp [hlen], ?_, ?_⟩
    · rw [List.foldl_cons, hstep]
      exact hfold
    · rw [hg]
      by_cases hpg : p.gender = base.gender
      · have h1 : (p.gender != base.gender) = false := by simp [hpg]
        have h2 : (p.gender == base.gender) = true := by simp [hpg]
        simp only [h1, Bool.false_eq_true, if_false, List.all_cons, h2,
          Bool.true_and]
      · have h1 : (p.gender != base.gender) = true := by simp [hpg]
        have h2 : (p.gender == base.gender) = false := by simp [hpg]
        simp [h1, h2, List.all_cons]
    · intro y hy
      rcases List.mem_cons.mp hy with rfl | hy
      · exact hxm
      · exact hmem y hy
    · rw [htext]
      simp only [List.map_cons, List.zip_cons_cons, List.foldl_cons]

/-- C8: merging a compound section of two or more partials forces the
merged number to `"plural"` and the merged type to the original section
type name; each subsequent partial's text is appended preceded by a
separator drawn from the section type's separator pool; and the merged
gender is the first partial's gender when all subsequent partials agree
with it and `"m"` as soon as any subsequent partial's gender differs from
the running gender. -/
theorem c8_merge (tO : TypeObj) (type : String) (p₀ : PartialResult)
    (rest : List PartialResult) (st : St)
    (_hr : rest ≠ []) (hs : tO.sep ≠ [])
    (hq : ∀ k, 0 ≤ st.stream k ∧ st.stream k < 1) :
    ∃ (res : PartialResult) (st' : St),
      mergePartials (p₀ :: rest) type tO st = some (res, st') ∧
      res.number = "plural" ∧ res.type = type ∧
      res.gender =
        (if rest.all (fun p => p.gender == p₀.gender) then p₀.gender else "m") ∧
      ∃ seps : List String, seps.length = rest.length ∧
        (∀ x ∈ seps, x ∈ tO.sep) ∧
        res.text = (seps.zip (rest.map PartialResult.text)).foldl
          (fun acc q => acc ++ q.1 ++ q.2) p₀.text := by
  obtain ⟨res₀, st', hfold, hty, hnum, hg, seps, hlen, hmem, htext⟩ :=
    mergeFold_spec tO hs rest p₀ st hq
  refine ⟨{ res₀ with type := type, number := "plural" }, st', ?_,
    rfl, rfl, hg, seps, hlen, hmem, htext⟩
  rw [mergePartials.eq_def]
  dsimp only
  rw [hfold]

theorem c8_merge_witness :
    ∃ (res : PartialResult) (st' : St),
      mergePartials [pA, pB] "duo" sepObj stW = some (res, st') ∧
      res.number = "plural" ∧ res.type = "duo" ∧
      res.gender =
        (if [pB].all (fun p => p.gender == pA.gender) then pA.gender else "m") ∧
      ∃ seps : List String, seps.length = [pB].length ∧
        (∀ x ∈ seps, x ∈ sepObj.sep) ∧
        res.text = (seps.zip ([pB].map PartialResult.text)).foldl
          (fun acc q => acc ++ q.1 ++ q.2) pA.text :=
  c8_merge sepObj "duo" pA [pB] stW (by simp) (by simp [sepObj])
    (fun _ => ⟨le_refl 0, by show (0 : ℚ) < 1; norm_num⟩)

/-! ## The resume line -/

/-- C9: the resume line is the mode noun phrase, followed — except in Word
mode — by the count of `text.split(/\s+/)` tokens of the final text, and
in every mode by the count of the characters of the final text that
survive stripping every non-`[A-Za-z]` character, with the attribution
phrase. -/
theorem c9_resume (s : Settings) (text : String) :
    updateResume s text =
      translationOf s ++
        (if s.type = IpsumType.Words then ""
         else ", " ++ toString (splitWsCount text) ++ " mots") ++
        (", " ++ toString (alphaCount text) ++
          " caractères de \n      <a href=\"" ++ s.url ++
          "\">Lee<em>psum</em></a> généré") := by
  rw [updateResume]
  by_cases ht : s.type = IpsumType.Words
  · rw [if_neg (by simp [ht]), if_pos ht]
    simp only [String.append_empty, String.empty_append, String.append_assoc]
  · rw [if_pos ht, if_neg ht]
    simp only [String.append_assoc]

/-! ## Unit counting and unit shapes -/

theorem setupUnits_length (d : Data) (fuel : ℕ) (type : IpsumType) :
    ∀ (n : ℕ) (st : St) (us : List String) (st' : St),
    setupUnits d fuel type n st = some (us, st') → us.length = n := by
  intro n
  induction n with
  | zero =>
    intro st us st' h
    rw [setupUnits] at h
    simp only [Option.some.injEq, Prod.mk.injEq] at h
    obtain ⟨hus, -⟩ := h
    subst hus
    rfl
  | succ n ih =>
    intro st us st' h
    rw [setupUnits] at h
    split at h
    · exact Option.noConfusion h
    case h_2 u st₁ hg =>
      split at h
      · exact Option.noConfusion h
      case h_2 us₂ st₂ hs =>
        simp only [Option.some.injEq, Prod.mk.injEq] at h
        obtain ⟨hus, -⟩ := h
        subst hus
        simp [ih _ _ _ hs]

/-- C3 counterexample: a negative caller-supplied count is truthy, so
`Number(value) || 1` keeps it and the run builds `Array.from({length: -3})
= []` — zero units, not the one unit the claim demands; a fractional count
is likewise kept and floored to 2 units. -/
theorem c3_count_counterexample :
    jsOrOne (some (-3)) = -3 ∧
    (setupUnits dW 1 IpsumType.Sentences (jsLength (jsOrOne (some (-3)))) stW).map
      (fun x => x.1.length) = some 0 ∧
    jsOrOne (some (5 / 2)) = 5 / 2 ∧
    (setupUnits dW 1 IpsumType.Sentences (jsLength (jsOrOne (some (5 / 2)))) stW).map
      (fun x => x.1.length) = some 2 ∧
    (0 : ℕ) ≠ 1 ∧ (2 : ℕ) ≠ 1 :=
  ⟨by with_unfolding_all rfl, by with_unfolding_all rfl,
   by with_unfolding_all rfl, by with_unfolding_all rfl,
   by decide, by decide⟩

/-- C3 amended: only the falsy counts — `NaN` from an unparsable input,
and `0` — are corrected to the default minimum of 1; every other value,
including negative and fractional ones, is kept as-is, and the run then
produces `⌊count⌋.toNat` units: a negative count yields an empty run and a
fractional count is floored rather than corrected to 1. -/
theorem c3_count_amended :
    jsOrOne none = 1 ∧ jsOrOne (some 0) = 1 ∧
    (∀ q : ℚ, q ≠ 0 → jsOrOne (some q) = q) ∧
    (∀ q : ℚ, q < 0 → jsLength q = 0) ∧
    (∀ (d : Data) (fuel : ℕ) (type : IpsumType) (n : ℕ) (st : St)
      (us : List String) (st' : St),
      setupUnits d fuel type n st = some (us, st') → us.length = n) := by
  refine ⟨rfl, rfl, ?_, ?_, fun d fuel type => setupUnits_length d fuel type⟩
  · intro q hq
    rw [jsOrOne]
    rw [if_neg (by simpa using hq)]
  · intro q hq
    rw [jsLength]
    have hlt : ⌊q⌋ < 0 := by
      apply Int.floor_lt.mpr
      simpa using hq
    omega

theorem c3_count_amended_witness :
    jsOrOne (some (-3)) = -3 ∧ jsLength (-3) = 0 :=
  ⟨c3_count_amended.2.2.1 (-3) (by norm_num),
   c3_count_amended.2.2.2.1 (-3) (by norm_num)⟩

theorem stringLengthEmpty : ("" : String).length = 0 := rfl

theorem stringOfLengthZero (b : String) (h : b.length = 0) : b = "" := by
  cases b with
  | mk l =>
    cases l with
    | nil => rfl
    | cons c cs => simp [String.length] at h

theorem append_ne_empty_right (a b : String) (hb : b ≠ "") : a ++ b ≠ "" := by
  intro hc
  have hl := congrArg String.length hc
  rw [String.length_append, stringLengthEmpty] at hl
  have hb' : b.length ≠ 0 := fun h0 => hb (stringOfLengthZero b h0)
  omega

theorem getLoremIpsum_shape (d : Data) (fuel : ℕ) (type : IpsumType)
    (st : St) (u : String) (st' : St)
    (h : getLoremIpsum d fuel type st = some (u, st')) :
    u ≠ "" ∧ unitShape d type u := by
  cases type <;> rw [getLoremIpsum] at h
  case Sentences =>
    split at h
    · exact Option.noConfusion h
    case h_2 b st₁ hg =>
      simp only [Option.some.injEq, Prod.mk.injEq] at h
      obtain ⟨hu, -⟩ := h
      subst hu
      exact ⟨append_ne_empty_right _ _ (by decide), b, rfl⟩
  case Words =>
    split at h
    · exact Option.noConfusion h
    case h_2 w st₁ hw =>
      simp only [Option.some.injEq, Prod.mk.injEq] at h
      obtain ⟨hu, -⟩ := h
      subst hu
      refine ⟨append_ne_empty_right _ _ (by decide), w, rfl, ?_⟩
      rw [randomWordFromPool] at hw
      simp only [randomFromArray, rand] at hw
      split at hw
      · exact Option.noConfusion hw
      case h_2 it hit =>
        simp only [Option.some.injEq, Prod.mk.injEq] at hw
        obtain ⟨hwv, -⟩ := hw
        cases hx : jsGet (it.splitOn " ") (st.stream (st.pos + 1)) with
        | none =>
          left
          rw [← hwv, hx]
          rfl
        | some x =>
          right
          refine ⟨it, jsGet_mem hit, ?_⟩
          rw [← hwv, hx]
          exact jsGet_mem hx
  case Paragraphs =>
    rw [generateParagraph] at h
    simp only [randomRange, rand] at h
    split at h
    · exact Option.noConfusion h
    case h_2 ss st₂ hg =>
      simp only [Option.some.injEq, Prod.mk.injEq] at h
      obtain ⟨hu, -⟩ := h
      subst hu
      exact ⟨append_ne_empty_right _ _ (by decide),
        String.intercalate " " ss, rfl⟩
  case Lists =>
    split at h
    · exact Option.noConfusion h
    case h_2 b st₁ hg =>
      simp only [Option.some.injEq, Prod.mk.injEq] at h
      obtain ⟨hu, -⟩ := h
      subst hu
      exact ⟨append_ne_empty_right _ _ (by decide), b, rfl⟩

theorem setupUnits_shape (d : Data) (fuel : ℕ) (type : IpsumType) :
    ∀ (n : ℕ) (st : St) (us : List String) (st' : St),
    setupUnits d fuel type n st = some (us, st') →
    ∀ u ∈ us, u ≠ "" ∧ unitShape d type u := by
  intro n
  induction n with
  | zero =>
    intro st us st' h
    rw [setupUnits] at h
    simp only [Option.some.injEq, Prod.mk.injEq] at h
    obtain ⟨hus, -⟩ := h
    subst hus
    intro u hu
    exact absurd hu (List.not_mem_nil u)
  | succ n ih =>
    intro st us st' h
    rw [setupUnits] at h
    split at h
    · exact Option.noConfusion h
    case h_2 u₀ st₁ hg =>
      split at h
      · exact Option.noConfusion h
      case h_2 us₂ st₂ hs =>
        simp only [Option.some.injEq, Prod.mk.injEq] at h
        obtain ⟨hus, -⟩ := h
        subst hus
        intro u hu
        rcases List.mem_cons.mp hu with rfl | hu
        · exact getLoremIpsum_shape d fuel type st u st₁ hg
        · exact ih _ _ _ hs u hu

theorem foldl_append_length (us : List String) :
    ∀ acc : String, acc.length ≤ (us.foldl (fun r s => r ++ s) acc).length := by
  induction us with
  | nil => intro acc; exact le_refl _
  | cons u us ih =>
    intro acc
    rw [List.foldl_cons]
    refine le_trans ?_ (ih (acc ++ u))
    rw [String.length_append]
    omega

theorem join_ne_empty (us : List String) (hne : us ≠ [])
    (h : ∀ u ∈ us, u ≠ "") : String.join us ≠ "" := by
  intro hc
  cases us with
  | nil => exact hne rfl
  | cons u rest =>
    have h1 : u.length ≤ (String.join (u :: rest)).length := by
      rw [String.join, List.foldl_cons]
      have hf := foldl_append_length rest ("" ++ u)
      have he : ("" ++ u).length = u.length := by
        rw [String.length_append, stringLengthEmpty]
        omega
      omega
    have h2 : u.length ≠ 0 :=
      fun h0 => h u (by simp) (stringOfLengthZero u h0)
    rw [hc, stringLengthEmpty] at h1
    omega

/-- C1 amended: for every mode, a completed generation run produces
exactly `count` top-level units; each unit is non-empty and carries the
mode-appropriate markup — sentence and word units each end in one space
(so consecutive sentence/word units are single-space separated, with a
trailing space), paragraph and list-item units carry their wrapper tags —
and the units are concatenated with `join("")`, i.e. with *no* separator
between units (in particular paragraphs are not space separated); for
`count ≥ 1` the concatenated text is non-empty; a word unit is one piece
of the space-split of a pool item followed by a space. -/
theorem c1_units_amended (d : Data) (fuel : ℕ) (type : IpsumType) (n : ℕ)
    (st : St) (us : List String) (st' : St)
    (h : setupUnits d fuel type n st = some (us, st')) :
    us.length = n ∧ (∀ u ∈ us, u ≠ "" ∧ unitShape d type u) ∧
    (1 ≤ n → String.join us ≠ "") := by
  refine ⟨setupUnits_length d fuel type n st us st' h,
    setupUnits_shape d fuel type n st us st' h, ?_⟩
  intro hn
  have hlen := setupUnits_length d fuel type n st us st' h
  refine join_ne_empty us ?_ ?_
  · intro hc
    rw [hc] at hlen
    simp at hlen
    omega
  · intro u hu
    exact (setupUnits_shape d fuel type n st us st' h u hu).1

theorem c1_units_amended_witness :
    setupUnits dW 1 IpsumType.Paragraphs 2 stW =
      some (["<p>Howdy Howdy</p>", "<p>Howdy Howdy</p>"], stW6) ∧
    (["<p>Howdy Howdy</p>", "<p>Howdy Howdy</p>"] : List String).length = 2 ∧
    String.join ["<p>Howdy Howdy</p>", "<p>Howdy Howdy</p>"] ≠ "" := by
  have hs : setupUnits dW 1 IpsumType.Paragraphs 2 stW =
      some (["<p>Howdy Howdy</p>", "<p>Howdy Howdy</p>"], stW6) := by
    with_unfolding_all rfl
  obtain ⟨h1, -, h3⟩ := c1_units_amended dW 1 IpsumType.Paragraphs 2 stW
    ["<p>Howdy Howdy</p>", "<p>Howdy Howdy</p>"] stW6 hs
  exact ⟨hs, h1, h3 (by omega)⟩

/-- C1 counterexample: the units of a run are joined with the empty
string, so two generated paragraphs are *not* separated by a single space
as the claim states: the produced markup has `</p><p>` at the seam and
differs from the single-space-joined text. -/
theorem c1_units_counterexample :
    (setup dW 1 [] ⟨"u", 2, IpsumType.Paragraphs⟩ stW).map Prod.fst =
      some ("<p>Howdy Howdy</p><p>Howdy Howdy</p>") ∧
    "<p>Howdy Howdy</p><p>Howdy Howdy</p>" ≠
      "<p>Howdy Howdy</p>" ++ " " ++ "<p>Howdy Howdy</p>" :=
  ⟨by with_unfolding_all rfl, by decide⟩

/-! ## Ligature idempotence -/

theorem hasPair_cons_iff (p₁ p₂ x : Char) (xs : List Char) :
    hasPair p₁ p₂ (x :: xs) = true ↔
      (x = p₁ ∧ xs.head? = some p₂) ∨ hasPair p₁ p₂ xs = true := by
  cases xs with
  | nil =>
    rw [show hasPair p₁ p₂ [x] = false from rfl,
      show hasPair p₁ p₂ ([] : List Char) = false from rfl]
    simp
  | cons y ys =>
    rw [hasPair]
    simp [List.head?_cons]

theorem hasPair_tail (p₁ p₂ x : Char) (xs : List Char)
    (h : hasPair p₁ p₂ (x :: xs) = false) : hasPair p₁ p₂ xs = false := by
  rw [Bool.eq_false_iff] at h ⊢
  intro hc
  exact h (by rw [hasPair_cons_iff]; right; exact hc)

theorem isPrefixOf_single (p₂ : Char) (l : List Char) :
    [p₂].isPrefixOf l = true ↔ l.head? = some p₂ := by
  cases l with
  | nil =>
    rw [show ([p₂].isPrefixOf ([] : List Char)) = false from rfl]
    simp
  | cons x xs =>
    rw [show ([p₂].isPrefixOf (x :: xs)) =
      ((p₂ == x) && ([] : List Char).isPrefixOf xs) from rfl]
    have he : (([] : List Char).isPrefixOf xs) = true := by
      cases xs <;> rfl
    rw [he]
    simp only [Bool.and_true, List.head?_cons, Option.some.injEq, beq_iff_eq]
    exact eq_comm

theorem rac_head (p₁ p₂ q d : Char) (ds : List Char) :
    (replaceAllCore p₁ [p₂] [q] (d :: ds)).head? = some q ∨
    (replaceAllCore p₁ [p₂] [q] (d :: ds)).head? = some d := by
  rw [replaceAllCore.eq_def]
  dsimp only
  split
  · left; rfl
  · right; rfl

theorem rac_no_pair (p₁ p₂ q : Char) (hq1 : q ≠ p₁) (hq2 : q ≠ p₂) :
    ∀ s : List Char, hasPair p₁ p₂ (replaceAllCore p₁ [p₂] [q] s) = false := by
  have H : ∀ (n : ℕ) (s : List Char), s.length ≤ n →
      hasPair p₁ p₂ (replaceAllCore p₁ [p₂] [q] s) = false := by
    intro n
    induction n with
    | zero =>
      intro s hs
      have hnil : s = [] := List.eq_nil_of_length_eq_zero (by omega)
      subst hnil
      rw [replaceAllCore.eq_def]
      all_goals rfl
    | succ n ih =>
      intro s hs
      cases s with
      | nil =>
        rw [replaceAllCore.eq_def]
        all_goals rfl
      | cons c cs =>
        rw [replaceAllCore.eq_def]
        dsimp only [List.length_singleton]
        split
        case isTrue hcond =>
          rw [show ([q] ++ replaceAllCore p₁ [p₂] [q] (cs.drop 1)) =
            q :: replaceAllCore p₁ [p₂] [q] (cs.drop 1) from rfl]
          rw [Bool.eq_false_iff]
          intro hcontra
          rw [hasPair_cons_iff] at hcontra
          rcases hcontra with ⟨hq, -⟩ | hcontra
          · exact hq1 hq
          · have hlen : (cs.drop 1).length ≤ n := by
              rw [List.length_drop]
              simp only [List.length_cons] at hs
              omega
            rw [ih (cs.drop 1) hlen] at hcontra
            cases hcontra
        case isFalse hcond =>
          rw [Bool.eq_false_iff]
          intro hcontra
          rw [hasPair_cons_iff] at hcontra
          rcases hcontra with ⟨hc, hhead⟩ | hcontra
          · cases cs with
            | nil =>
              rw [replaceAllCore.eq_def] at hhead
              cases hhead
            | cons d ds =>
              rcases rac_head p₁ p₂ q d ds with hh | hh
              · rw [hh] at hhead
                exact hq2 (Option.some.inj hhead)
              · rw [hh] at hhead
                exact hcond ⟨hc, (isPrefixOf_single p₂ (d :: ds)).mpr
                  (by rw [Option.some.inj hhead]; rfl)⟩
          · have hlen : cs.length ≤ n := by
              simp only [List.length_cons] at hs
              omega
            rw [ih cs hlen] at hcontra
            cases hcontra
  exact fun s => H s.length s le_rfl

theorem rac_id (p₁ p₂ : Char) (r : List Char) :
    ∀ s : List Char, hasPair p₁ p₂ s = false →
    replaceAllCore p₁ [p₂] r s = s := by
  have H : ∀ (n : ℕ) (s : List Char), s.length ≤ n →
      hasPair p₁ p₂ s = false → replaceAllCore p₁ [p₂] r s = s := by
    intro n
    induction n with
    | zero =>
      intro s hs _
      have hnil : s = [] := List.eq_nil_of_length_eq_zero (by omega)
      subst hnil
      rw [replaceAllCore.eq_def]
    | succ n ih =>
      intro s hs hp
      cases s with
      | nil =>
        rw [replaceAllCore.eq_def]
      | cons c cs =>
        rw [replaceAllCore.eq_def]
        dsimp only [List.length_singleton]
        rw [if_neg]
        · have hlen : cs.length ≤ n := by
            simp only [List.length_cons] at hs
            omega
          rw [ih cs hlen (hasPair_tail p₁ p₂ c cs hp)]
        · rintro ⟨hc, hpre⟩
          have hhead := (isPrefixOf_single p₂ cs).mp hpre
          rw [Bool.eq_false_iff] at hp
          exact hp ((hasPair_cons_iff p₁ p₂ c cs).mpr (Or.inl ⟨hc, hhead⟩))
  exact fun s => H s.length s le_rfl

theorem rac_preserve (p₁ p₂ a₁ a₂ q : Char) (hq1 : q ≠ p₁) (hq2 : q ≠ p₂) :
    ∀ s : List Char, hasPair p₁ p₂ s = false →
    hasPair p₁ p₂ (replaceAllCore a₁ [a₂] [q] s) = false := by
  have H : ∀ (n : ℕ) (s : List Char), s.length ≤ n →
      hasPair p₁ p₂ s = false →
      hasPair p₁ p₂ (replaceAllCore a₁ [a₂] [q] s) = false := by
    intro n
    induction n with
    | zero =>
      intro s hs _
      have hnil : s = [] := List.eq_nil_of_length_eq_zero (by omega)
      subst hnil
      rw [replaceAllCore.eq_def]
      all_goals rfl
    | succ n ih =>
      intro s hs hp
      cases s with
      | nil =>
        rw [replaceAllCore.eq_def]
        all_goals rfl
      | cons c cs =>
        rw [replaceAllCore.eq_def]
        dsimp only [List.length_singleton]
        split
        case isTrue hcond =>
          rw [show ([q] ++ replaceAllCore a₁ [a₂] [q] (cs.drop 1)) =
            q :: replaceAllCore a₁ [a₂] [q] (cs.drop 1) from rfl]
          rw [Bool.eq_false_iff]
          intro hcontra
          rw [hasPair_cons_iff] at hcontra
          rcases hcontra with ⟨hq, -⟩ | hcontra
          · exact hq1 hq
          · have hlen : (cs.drop 1).length ≤ n := by
              rw [List.length_drop]
              simp only [List.length_cons] at hs
              omega
            have hdp : hasPair p₁ p₂ (cs.drop 1) = false := by
              cases cs with
              | nil => rfl
              | cons d ds =>
                exact hasPair_tail p₁ p₂ d ds (hasPair_tail p₁ p₂ c (d :: ds) hp)
            rw [ih (cs.drop 1) hlen hdp] at hcontra
            cases hcontra
        case isFalse hcond =>
          rw [Bool.eq_false_iff]
          intro hcontra
          rw [hasPair_cons_iff] at hcontra
          rcases hcontra with ⟨hc, hhead⟩ | hcontra
          · cases cs with
            | nil =>
              rw [replaceAllCore.eq_def] at hhead
              cases hhead
            | cons d ds =>
              rcases rac_head a₁ a₂ q d ds with hh | hh
              · rw [hh] at hhead
                exact hq2 (Option.some.inj hhead)
              · rw [hh] at hhead
                have hd : d = p₂ := Option.some.inj hhead
                rw [Bool.eq_false_iff] at hp
                exact hp ((hasPair_cons_iff p₁ p₂ c (d :: ds)).mpr
                  (Or.inl ⟨hc, by rw [hd]; rfl⟩))
          · have hlen : cs.length ≤ n := by
              simp only [List.length_cons] at hs
              omega
            rw [ih cs hlen (hasPair_tail p₁ p₂ c cs hp)] at hcontra
            cases hcontra
  exact fun s => H s.length s le_rfl

/-- C10: the ligature post-processor is idempotent for the modelled rule
set `oe → œ`, `ae → æ`: a pass leaves no `oe` (nor `ae`) occurrence
behind and the replacement glyphs can never recreate one, so a second
pass changes nothing. -/
theorem c10_ligature_idempotent (s : String) :
    fixLigatures ligatureRules (fixLigatures ligatureRules s) =
      fixLigatures ligatureRules s := by
  rw [fixLigatures, fixLigatures]
  simp only [ligatureRules, List.foldl_cons, List.foldl_nil, replaceAll]
  have hdata : ∀ l : List Char, (String.mk l).data = l := fun l => rfl
  rw [hdata]
  have hoe : hasPair 'o' 'e'
      (replaceAllCore 'o' ['e'] ['œ'] s.data) = false :=
    rac_no_pair 'o' 'e' 'œ' (by decide) (by decide) s.data
  have hoe2 : hasPair 'o' 'e'
      (replaceAllCore 'a' ['e'] ['æ'] (replaceAllCore 'o' ['e'] ['œ'] s.data))
        = false :=
    rac_preserve 'o' 'e' 'a' 'e' 'æ' (by decide) (by decide) _ hoe
  have hae : hasPair 'a' 'e'
      (replaceAllCore 'a' ['e'] ['æ'] (replaceAllCore 'o' ['e'] ['œ'] s.data))
        = false :=
    rac_no_pair 'a' 'e' 'æ' (by decide) (by decide) _
  rw [rac_id 'o' 'e' ['œ'] _ hoe2, rac_id 'a' 'e' ['æ'] _ hae]

end Leepsum
